import Mathlib

/-!
Shallow embedding of `src/scraper/parser.py` (Seattle Utilities bill
parser) and verification of the frozen claims about it.

Modelling conventions:
* Python strings are modelled as `List Char`.
* The concrete regular expressions of the source are embedded as
  executable matchers following the engine's leftmost / greedy / lazy
  backtracking discipline for those concrete patterns.
* Monetary and usage values (Python `float` applied to matched digit
  groups) are modelled as exact rationals.
* Character classes `\d`, `\w`, `\s`, `[A-Za-z]` are read over their
  ASCII content, which is what the bill texts exercise.
* Fallible code (the header `ValueError`, `float` on a malformed group,
  the validation `assert`) is modelled with `Except String`; the
  `log.warning` calls are modelled as returned `Warning` values so the
  warning behaviour is observable.
-/

namespace BillParser

/-- ASCII whitespace recognised by Python `str.strip()` and by `\s`. -/
def pySpace (c : Char) : Bool :=
  c = ' ' || c = '\t' || c = '\n' || c = '\r' || c = '\x0b' || c = '\x0c'

/-- Python `\w` over ASCII: letters, digits and underscore. -/
def isWordChar (c : Char) : Bool := c.isAlphanum || c = '_'

/-- Drop trailing `pySpace` characters (the right half of `str.strip()`). -/
def dropTr : List Char → List Char
  | [] => []
  | c :: t =>
    match dropTr t with
    | [] => if pySpace c then [] else [c]
    | r => c :: r

/-- Python `str.strip()`: drop leading and trailing whitespace. -/
def pyStrip (l : List Char) : List Char := dropTr (l.dropWhile pySpace)

/-- Python `text.split('\n')` (keeps empty pieces). -/
def splitNl : List Char → List (List Char)
  | [] => [[]]
  | c :: cs =>
    if c = '\n' then [] :: splitNl cs
    else
      match splitNl cs with
      | [] => [[c]]
      | a :: as => (c :: a) :: as

/-- Python `'\n'.join(lines)`. -/
def joinNl : List (List Char) → List Char
  | [] => []
  | [l] => l
  | l :: ls => l ++ '\n' :: joinNl ls

/-- Numeric value of a run of decimal digit characters. -/
def natOfDigits (l : List Char) : Nat :=
  l.foldl (fun a c => 10 * a + (c.toNat - '0'.toNat)) 0

/-- Python `float` on the numeric group shapes this parser can produce:
either all digits, or digits-dot-digits; `none` models the `ValueError`
raised on any other shape (for the groups matched with an unescaped `.`). -/
def parseFloatQ (l : List Char) : Option ℚ :=
  if (l.takeWhile Char.isDigit).isEmpty then none else
  match l.drop (l.takeWhile Char.isDigit).length with
  | [] => some (natOfDigits (l.takeWhile Char.isDigit))
  | '.' :: fr =>
    if !fr.isEmpty && fr.all Char.isDigit then
      some ((natOfDigits (l.takeWhile Char.isDigit) : ℚ) +
        (natOfDigits fr : ℚ) / (10 : ℚ) ^ fr.length)
    else none
  | _ => none

/-- Match a literal token at the head of the text, returning the rest. -/
def chompLit : List Char → List Char → Option (List Char)
  | [], cs => some cs
  | _ :: _, [] => none
  | p :: ps, c :: cs => if c = p then chompLit ps cs else none

/-- Python substring containment (`needle in hay`). -/
def containsSub (needle : List Char) : List Char → Bool
  | [] => (chompLit needle []).isSome
  | c :: t => (chompLit needle (c :: t)).isSome || containsSub needle t

/-- Lower-case a string (ASCII, as Python `str.lower` on these inputs). -/
def lowerL (l : List Char) : List Char := l.map Char.toLower

/-- Decidable equality on `Except`, used only to evaluate the embedding on
concrete inputs in the witnesses. -/
instance exceptDecEq {e a : Type} [DecidableEq e] [DecidableEq a] :
    DecidableEq (Except e a) := fun x y =>
  match x, y with
  | .ok u, .ok v =>
    if h : u = v then .isTrue (by rw [h])
    else .isFalse (by intro hc; cases hc; exact h rfl)
  | .error u, .error v =>
    if h : u = v then .isTrue (by rw [h])
    else .isFalse (by intro hc; cases hc; exact h rfl)
  | .ok _, .error _ => .isFalse (by intro hc; cases hc)
  | .error _, .ok _ => .isFalse (by intro hc; cases hc)

/-! ### The solid-waste line normalizer (`_normalize_solid_waste_text`) -/

/-- Match `[A-Z][a-z]{2} \d{2}, \d{4}` at the head; returns the rest. -/
def chompDateAlpha : List Char → Option (List Char)
  | u :: l1 :: l2 :: s1 :: d1 :: d2 :: cm :: s2 :: y1 :: y2 :: y3 :: y4 :: rest =>
    if u.isUpper && l1.isLower && l2.isLower && s1 = ' ' && d1.isDigit && d2.isDigit
        && cm = ',' && s2 = ' ' && y1.isDigit && y2.isDigit && y3.isDigit && y4.isDigit
    then some rest else none
  | _ => none

/-- `single_date_pattern.match`: line begins with one date token. -/
def singleDateB (l : List Char) : Bool := (chompDateAlpha l).isSome

/-- `two_dates_pattern.match`: two date tokens separated by `\s*`. -/
def twoDatesB (l : List Char) : Bool :=
  match chompDateAlpha l with
  | some r => (chompDateAlpha (r.dropWhile pySpace)).isSome
  | none => false

/-- `cost_only_pattern.match`: the whole line is `\d+\.\d{2}`. -/
def costOnlyB (l : List Char) : Bool :=
  let ds := l.takeWhile Char.isDigit
  !ds.isEmpty &&
    match l.drop ds.length with
    | ['.', a, b] => a.isDigit && b.isDigit
    | _ => false

/-- `continuation_pattern.match` (IGNORECASE full-line frequency words). -/
def contWordB (l : List Char) : Bool :=
  lowerL l = "weekly".data || lowerL l = "week".data
    || lowerL l = "other".data || lowerL l = "every".data

/-- `re.search(r'\d+\.\d{2}$', prev)`: the line ends in a cost number. -/
def hasCostSuffixB (l : List Char) : Bool :=
  match l.reverse with
  | b :: a :: p :: d :: _ => b.isDigit && a.isDigit && p = '.' && d.isDigit
  | _ => false

/-- One iteration of the normalizer loop; the accumulator holds the
`normalized` list in reverse (its head is Python's `normalized[-1]`). -/
def normStep (acc : List (List Char)) (raw : List Char) : List (List Char) :=
  let line := pyStrip raw
  if line = [] then acc
  else if twoDatesB line then line :: acc
  else
    match acc with
    | [] => [line]
    | prev :: rest =>
      if costOnlyB line || contWordB line
          || (singleDateB line && !twoDatesB prev && singleDateB prev) then
        (prev ++ ' ' :: line) :: rest
      else if hasCostSuffixB prev then line :: prev :: rest
      else (prev ++ ' ' :: line) :: rest

/-- The normalizer on a list of raw physical lines. -/
def normCore (ls : List (List Char)) : List (List Char) :=
  (ls.foldl normStep []).reverse

/-- `_normalize_solid_waste_text`. -/
def normalize_solid_waste_text (cs : List Char) : List Char :=
  joinNl (normCore (splitNl cs))

/-- A line as produced by the normalizer: nonempty, stripped at both
ends, and newline-free. -/
def GoodLine (l : List Char) : Prop :=
  l ≠ [] ∧ (∀ a, l.head? = some a → pySpace a = false) ∧
    (∀ a, l.getLast? = some a → pySpace a = false) ∧ '\n' ∉ l

/-- Match `\w{3} \d{2}, \d{4}` at the head; returns the 12 matched
characters and the rest. -/
def chompDateW12 : List Char → Option (List Char × List Char)
  | w1 :: w2 :: w3 :: s1 :: d1 :: d2 :: cm :: s2 :: y1 :: y2 :: y3 :: y4 :: rest =>
    if isWordChar w1 && isWordChar w2 && isWordChar w3 && s1 = ' ' && d1.isDigit
        && d2.isDigit && cm = ',' && s2 = ' ' && y1.isDigit && y2.isDigit
        && y3.isDigit && y4.isDigit
    then some ([w1, w2, w3, s1, d1, d2, cm, s2, y1, y2, y3, y4], rest) else none
  | _ => none

/-- Greedy `\d+\.\d{2}`. -/
def chompNumDot (cs : List Char) : Option (List Char × List Char) :=
  let ds := cs.takeWhile Char.isDigit
  if ds.isEmpty then none else
  match cs.drop ds.length with
  | '.' :: a :: b :: rest =>
    if a.isDigit && b.isDigit then some (ds ++ '.' :: a :: b :: [], rest) else none
  | _ => none

/-- Backtracking loop for `\d+.\d{2}` (unescaped dot): digit-prefix
lengths are tried greedily, longest first.  The dot position matches any
character except `\n` (Python `.` without `DOTALL` never matches a
newline). -/
def chompNumAnyAux (cs : List Char) : Nat → Option (List Char × List Char)
  | 0 => none
  | k + 1 =>
    match cs.drop (k + 1) with
    | c :: a :: b :: rest =>
      if c ≠ '\n' && a.isDigit && b.isDigit then
        some (cs.take (k + 1) ++ c :: a :: b :: [], rest)
      else chompNumAnyAux cs k
    | _ => chompNumAnyAux cs k

/-- Greedy `\d+.\d{2}` whose continuation always succeeds. -/
def chompNumAny (cs : List Char) : Option (List Char × List Char) :=
  chompNumAnyAux cs (cs.takeWhile Char.isDigit).length

/-- Greedy `\*?`: consume a literal star if present (taking it can never
make the rest of the patterns below fail, so no backtracking arises). -/
def skipStar : List Char → List Char
  | '*' :: rest => rest
  | cs => cs

/-- The trailing `(?P<credit>\s*CR)?` group: skip whitespace greedily and
look for the literal `CR`; `CR` cannot begin with a `\s` character, so the
greedy skip is deterministic. When the group fails nothing is consumed. -/
def chompCredit (cs : List Char) : Bool × List Char :=
  match chompLit "CR".data (cs.dropWhile pySpace) with
  | some rest => (true, rest)
  | none => (false, cs)

/-! ### `USAGE_REGEX` and `re.split` (`_parse_service_bill`) -/

/-- Groups of one `USAGE_REGEX` match. -/
structure UsageG where
  start_date : List Char
  end_date : List Char
  usageG : List Char
  smG : Option (List Char)
  emG : Option (List Char)
deriving Repr, DecidableEq

/-- The optional `(?: (?P<start_meter>\d+.\d{2})\*? (?P<end_meter>\d+.\d{2})\*?)?`
suffix of `USAGE_REGEX`, starting after the leading space: start-meter
digit-prefix lengths are backtracked (longest first) against the rest of
the group; the end-meter needs no backtracking because everything after it
is optional.  The start-meter's unescaped dot position matches any
character except `\n`. -/
def chompMeterAux (cs : List Char) : Nat → Option ((List Char × List Char) × List Char)
  | 0 => none
  | k + 1 =>
    match cs.drop (k + 1) with
    | c :: a :: b :: rest =>
      if c ≠ '\n' && a.isDigit && b.isDigit then
        match skipStar rest with
        | ' ' :: r2 =>
          match chompNumAny r2 with
          | some (em, r3) =>
            some ((cs.take (k + 1) ++ c :: a :: b :: [], em), skipStar r3)
          | none => chompMeterAux cs k
        | _ => chompMeterAux cs k
      else chompMeterAux cs k
    | _ => chompMeterAux cs k

/-- Match one fixed character at the head. -/
def chompChar (c : Char) : List Char → Option (List Char)
  | [] => none
  | x :: rest => if x = c then some rest else none

/-- The whole optional meter pair (including its leading space). -/
def chompMeterOpt (cs : List Char) : Option (List Char × List Char) × List Char :=
  match chompChar ' ' cs with
  | some r1 =>
    match chompMeterAux r1 (r1.takeWhile Char.isDigit).length with
    | some (g, rest) => (some g, rest)
    | none => (none, cs)
  | none => (none, cs)

/-- Match `USAGE_REGEX` at the head of the text. -/
def matchUsage (cs : List Char) : Option (UsageG × List Char) :=
  match chompDateW12 cs with
  | none => none
  | some (d1, r1) =>
    match chompChar ' ' r1 with
    | none => none
    | some r2 =>
      match chompDateW12 r2 with
      | none => none
      | some (d2, r3) =>
        match chompChar ' ' r3 with
        | none => none
        | some r4 =>
          match chompNumAny r4 with
          | none => none
          | some (u, r5) =>
            let (m, rest) := chompMeterOpt (skipStar r5)
            some (⟨d1, d2, u, m.map Prod.fst, m.map Prod.snd⟩, rest)

/-- Leftmost `USAGE_REGEX` match: the text before the match, the groups,
and the text after the match. -/
def findUsage : List Char → Option (List Char × UsageG × List Char)
  | [] => none
  | c :: cs =>
    match matchUsage (c :: cs) with
    | some (g, rest) => some ([], g, rest)
    | none =>
      match findUsage cs with
      | some (pre, g, rest) => some (c :: pre, g, rest)
      | none => none

/-- `re.split(USAGE_REGEX, ·)` in structured form: the text before the
first match, plus one `(groups, following segment)` pair per match.  The
fuel only bounds the number of matches; each match consumes at least one
character, so `cs.length` suffices (`usageSplitAux_congr` below). -/
def usageSplitAux : Nat → List Char → List Char × List (UsageG × List Char)
  | 0, cs => (cs, [])
  | f + 1, cs =>
    match findUsage cs with
    | none => (cs, [])
    | some (pre, g, after) =>
      (pre, (g, (usageSplitAux f after).1) :: (usageSplitAux f after).2)

def usageSplit (cs : List Char) : List Char × List (UsageG × List Char) :=
  usageSplitAux cs.length cs

/-! ### `ITEM_REGEX` (`_parse_items`) -/

/-- Groups of one `ITEM_REGEX` match. -/
structure ItemG where
  startG : Option (List Char)
  endG : Option (List Char)
  descG : List Char
  dateG : Option (List Char)
  usageG : Option (List Char)
  rateG : Option (List Char)
  costG : List Char
  credit : Bool
deriving Repr, DecidableEq

/-- The mandatory `(?P<cost>\d+\.\d{2})(?P<credit>\s*CR)?` tail. -/
def chompCost (cs : List Char) : Option ((List Char × Bool) × List Char) :=
  match chompNumDot cs with
  | some (cost, r1) =>
    let (cr, rest) := chompCredit r1
    some ((cost, cr), rest)
  | none => none

/-- Backtracking for `(?P<rate>\d+.\d{2}) per CCF ` followed by the cost:
rate digit-prefix lengths are tried longest first against the literal and
the cost tail.  The rate's unescaped dot position matches any character
except `\n`. -/
def chompRateCostAux (cs : List Char) : Nat → Option ((List Char × List Char × Bool) × List Char)
  | 0 => none
  | k + 1 =>
    (match cs.drop (k + 1) with
     | c :: a :: b :: r1 =>
       if c ≠ '\n' && a.isDigit && b.isDigit then
         match chompLit " per CCF ".data r1 with
         | some r2 =>
           match chompCost r2 with
           | some ((cost, cr), rest) =>
             some ((cs.take (k + 1) ++ c :: a :: b :: [], cost, cr), rest)
           | none => none
         | none => none
       else none
     | _ => none) <|> chompRateCostAux cs k

/-- The optional usage clause `(?:(?P<usage>\d+\.\d{2}) CCF @ \$(?P<rate>\d+.\d{2}) per CCF )?`
followed by the mandatory cost; the clause is greedy, so it is attempted
before the bare cost. Returns `(usage?, rate?, cost, credit)`. -/
def chompUsageCost (cs : List Char) :
    Option ((Option (List Char) × Option (List Char) × List Char × Bool) × List Char) :=
  (match chompNumDot cs with
   | some (u, r1) =>
     match chompLit " CCF @ $".data r1 with
     | some r2 =>
       match chompRateCostAux r2 (r2.takeWhile Char.isDigit).length with
       | some ((rate, cost, cr), rest) => some ((some u, some rate, cost, cr), rest)
       | none => none
     | none => none
   | none => none) <|>
  (match chompCost cs with
   | some ((cost, cr), rest) => some ((none, none, cost, cr), rest)
   | none => none)

/-- Skip the literal-space run of a ` *` whose continuation must begin
with a digit or word character (deterministic greedy match). -/
def skipSpaces (cs : List Char) : List Char := cs.dropWhile (· = ' ')

/-- Tail of `ITEM_REGEX` after the description and its `\s*`: the optional
single date (greedy, attempted first; its ` *` and the `\s*` before it are
deterministic because everything that can follow starts with a word or
digit character), then usage clause and cost. -/
def chompTail (cs : List Char) : Option (((Option (List Char)) ×
    Option (List Char) × Option (List Char) × List Char × Bool) × List Char) :=
  (match chompDateW12 cs with
   | some (d, r1) =>
     match chompUsageCost (skipSpaces r1) with
     | some ((u, rt, cost, cr), rest) => some ((some d, u, rt, cost, cr), rest)
     | none => none
   | none => none) <|>
  (match chompUsageCost cs with
   | some ((u, rt, cost, cr), rest) => some ((none, u, rt, cost, cr), rest)
   | none => none)

/-- Lazy `(?P<description>.+?)` loop: description lengths are tried
shortest first, never crossing a newline (`.` does not match `\n`); the
`\s*` after it is deterministic (see `chompTail`).  The second argument is
the candidate length, the third the remaining budget. -/
def descAux (cs : List Char) : Nat → Nat →
    Option ((List Char × Option (List Char) × Option (List Char) ×
      Option (List Char) × List Char × Bool) × List Char)
  | _, 0 => none
  | dLen, rem + 1 =>
    match chompTail ((cs.drop dLen).dropWhile pySpace) with
    | some ((d, u, rt, cost, cr), rest) => some ((cs.take dLen, d, u, rt, cost, cr), rest)
    | none => descAux cs (dLen + 1) rem

/-- Match the description-and-tail core of `ITEM_REGEX` at the head. -/
def matchCore (cs : List Char) (sd ed : Option (List Char)) : Option (ItemG × List Char) :=
  match descAux cs 1 (cs.takeWhile (· ≠ '\n')).length with
  | some ((d, dt, u, rt, cost, cr), rest) => some (⟨sd, ed, d, dt, u, rt, cost, cr⟩, rest)
  | none => none

/-- The greedy ` *` after the optional start/end date prefix: here the
following `.+?` can itself consume spaces, so space counts are genuinely
backtracked, longest first. -/
def prefixSpaceAux (cs : List Char) (d1 d2 : List Char) : Nat → Option (ItemG × List Char)
  | 0 => matchCore cs (some d1) (some d2)
  | s + 1 => (matchCore (cs.drop (s + 1)) (some d1) (some d2)) <|> prefixSpaceAux cs d1 d2 s

/-- Match `ITEM_REGEX` at the head of the text (which must be a line
start): the optional `start`/`end` date prefix is greedy and attempted
first. -/
def matchItem (cs : List Char) : Option (ItemG × List Char) :=
  (match chompDateW12 cs with
   | some (d1, r1) =>
     match r1 with
     | ' ' :: r2 =>
       match chompDateW12 r2 with
       | some (d2, r3) => prefixSpaceAux r3 d1 d2 (r3.takeWhile (· = ' ')).length
       | none => none
     | _ => none
   | none => none) <|> matchCore cs none none

/-- `re.finditer(ITEM_REGEX, ·, re.MULTILINE)`: scan left to right, only
attempting matches at line starts (`^` with MULTILINE); a successful match
always ends in a digit or `R`, so the position after it is never a line
start.  Fuel: every step consumes at least one character, so
`cs.length + 1` suffices. -/
def itemFindAux : Nat → Bool → List Char → List ItemG
  | 0, _, _ => []
  | f + 1, atStart, cs =>
    if atStart then
      match matchItem cs with
      | some (g, rest) => g :: itemFindAux f false rest
      | none =>
        match cs with
        | [] => []
        | c :: t => itemFindAux f (c = '\n') t
    else
      match cs with
      | [] => []
      | c :: t => itemFindAux f (c = '\n') t

def itemFind (cs : List Char) : List ItemG := itemFindAux (cs.length + 1) true cs

/-! ### Structured records (`LineItem`, `UsagePart`) -/

/-- One parsed line item.  The Python dict keys are `description`, `cost`,
`start`, `end`, `date`, `usage`, `rate`, and after `_parse_trash` possibly
`size` and `count`; `Option` models keys that are simply absent. -/
structure LineItem where
  description : List Char
  cost : ℚ
  istart : Option (List Char)
  iend : Option (List Char)
  idate : Option (List Char)
  usage : Option ℚ
  rate : Option ℚ
  size : Option ℕ
  count : Option ℕ
deriving Repr, DecidableEq

/-- One usage/meter period of a service. -/
structure UsagePart where
  items : List LineItem
  start_date : Option (List Char)
  end_date : Option (List Char)
  usage : Option ℚ
  start_meter : Option ℚ
  end_meter : Option ℚ
  meter_number : Option (List Char)
  service_category : Option (List Char)
deriving Repr, DecidableEq

/-- A failed `float(...)` raises `ValueError`, aborting the parse. -/
def ofOpt {α : Type} : Option α → Except String α
  | some a => .ok a
  | none => .error "MalformedNumeric"

/-- Sequential construction of a result list, aborting at the first
failure (the Python `for`-loop building each result list). -/
def exMapM {α β : Type} (f : α → Except String β) : List α → Except String (List β)
  | [] => .ok []
  | x :: l =>
    match f x with
    | .error e => .error e
    | .ok y =>
      match exMapM f l with
      | .error e => .error e
      | .ok ys => .ok (y :: ys)

def optFloat : Option (List Char) → Except String (Option ℚ)
  | none => .ok none
  | some s =>
    match parseFloatQ s with
    | none => .error "MalformedNumeric"
    | some q => .ok (some q)

/-! ### `TRASH_REGEX` (`_parse_trash`) -/

def isTrashChar (c : Char) : Bool := isWordChar c || c = ' ' || c = '/'

/-- Greedy `[\w /]+` description backtracking of `TRASH_REGEX`: longest
first, each candidate followed by a space, `\d+` (greedy, deterministic)
and the literal ` Gal`. -/
def trashDescAux (cs : List Char) : Nat → Option (List Char × ℕ)
  | 0 => none
  | k + 1 =>
    (match cs.drop (k + 1) with
     | ' ' :: r1 =>
       let sds := r1.takeWhile Char.isDigit
       if sds.isEmpty then none
       else
         match chompLit " Gal".data (r1.drop sds.length) with
         | some _ => some (cs.take (k + 1), natOfDigits sds)
         | none => none
     | _ => none) <|> trashDescAux cs k

/-- `re.search(TRASH_REGEX, ·)`: the pattern is anchored with `^` and no
MULTILINE flag, so only a match at the start of the string counts.
Returns `(count, description group, size)`. -/
def matchTrash (cs : List Char) : Option (ℕ × List Char × ℕ) :=
  let ds := cs.takeWhile Char.isDigit
  if ds.isEmpty then none else
  match cs.drop ds.length with
  | '-' :: r1 =>
    match trashDescAux r1 (r1.takeWhile isTrashChar).length with
    | some (d, sz) => some (natOfDigits ds, d, sz)
    | none => none
  | _ => none

/-- `_parse_trash`. -/
def parse_trash (it : LineItem) : LineItem :=
  match matchTrash it.description with
  | some (ct, d, sz) =>
    { it with description := pyStrip d, size := some sz, count := some ct }
  | none => it

/-- Build one `LineItem` from the groups of an `ITEM_REGEX` match, as
`_parse_items` does (including the `_parse_trash` post-processing and the
credit sign flip). -/
def mkItem (g : ItemG) : Except String LineItem :=
  match parseFloatQ g.costG with
  | none => .error "MalformedNumeric"
  | some costMag =>
    match optFloat g.usageG with
    | .error e => .error e
    | .ok u =>
      match optFloat g.rateG with
      | .error e => .error e
      | .ok r =>
        .ok (parse_trash
          { description := pyStrip ((g.descG).map (fun c => if c = '\n' then ' ' else c))
            cost := if g.credit then -costMag else costMag
            istart := g.startG, iend := g.endG, idate := g.dateG
            usage := u, rate := r, size := none, count := none })

/-- `_parse_items`. -/
def parse_items (cs : List Char) : Except String (List LineItem) :=
  exMapM mkItem (itemFind cs)

/-! ### `METER_REGEX` (`_parse_meter`) -/

/-- Match `METER_REGEX` at the head: the classes `[\w-]+` and `\w*` are
greedy and deterministic here because their continuations start with a
space / end the pattern. -/
def matchMeterAt (cs : List Char) : Option (List Char × List Char) :=
  match chompLit "Meter Number: ".data cs with
  | some r1 =>
    let mn := r1.takeWhile (fun c => isWordChar c || c = '-')
    if mn.isEmpty then none else
    match chompLit " Service Category:".data (r1.drop mn.length) with
    | some r2 =>
      let r3 := match r2 with
        | ' ' :: t => t
        | _ => r2
      some (mn, r3.takeWhile isWordChar)
    | none => none
  | none => none

/-- `re.search(METER_REGEX, ·)` (leftmost match). -/
def findMeter : List Char → Option (List Char × List Char)
  | [] => none
  | c :: t =>
    match matchMeterAt (c :: t) with
    | some r => some r
    | none => findMeter t

/-- `_parse_meter`: the two optional fields it contributes. -/
def parse_meter (cs : List Char) : Option (List Char) × Option (List Char) :=
  match findMeter cs with
  | some (mn, sc) => (some mn, some sc)
  | none => (none, none)

/-! ### `_parse_service_bill` -/

/-- Build one `UsagePart` from one `re.split` batch
`(start_date, end_date, usage, start_meter, end_meter, items_str)`. -/
def mkPart (b : UsageG × List Char) : Except String UsagePart :=
  match parse_items b.2 with
  | .error e => .error e
  | .ok items =>
    match parseFloatQ b.1.usageG with
    | none => .error "MalformedNumeric"
    | some u =>
      match optFloat b.1.smG with
      | .error e => .error e
      | .ok sm =>
        match optFloat b.1.emG with
        | .error e => .error e
        | .ok em =>
          .ok ⟨items, some b.1.start_date, some b.1.end_date, some u, sm, em,
            (parse_meter b.2).1, (parse_meter b.2).2⟩

/-- `_parse_service_bill`. -/
def parse_service_bill (cs : List Char) : Except String (List UsagePart) :=
  match usageSplit cs with
  | (pre, []) =>
    match parse_items pre with
    | .error e => .error e
    | .ok items =>
      .ok [⟨items, none, none, none, none, none, (parse_meter pre).1, (parse_meter pre).2⟩]
  | (_, bs) => exMapM mkPart bs

/-! ### `SERVICE_REGEX` (`_parse_services`) -/

/-- Groups of one `SERVICE_REGEX` match (`total` kept as its raw digit
group; the sign flip happens in `_parse_services`). -/
structure ServiceM where
  name : List Char
  bill : List Char
  totG : List Char
  credit : Bool
deriving Repr, DecidableEq

def isServiceChar (c : Char) : Bool := c.isAlpha || c = ' '

/-- Try the trailer `Current <name>: <total>(\s*CR)?` at the head (the
back-reference `\1` makes the name literal). -/
def chompTrailer (name : List Char) (cs : List Char) : Option ((List Char × Bool) × List Char) :=
  match chompLit ("Current ".data ++ name ++ ": ".data) cs with
  | some r1 =>
    match chompNumDot r1 with
    | some (tot, r2) =>
      let (cr, rest) := chompCredit r2
      some ((tot, cr), rest)
    | none => none
  | none => none

/-- Scan for the first trailer occurrence (the lazy
`(?P<bill>(?:.|\n)+?)` prefers the shortest bill), returning the scanned
prefix, the total group with credit flag, and the rest after the match. -/
def findTrailer (name : List Char) : List Char → Option (List Char × (List Char × Bool) × List Char)
  | [] => none
  | c :: cs =>
    match chompTrailer name (c :: cs) with
    | some (tc, rest) => some ([], tc, rest)
    | none =>
      match findTrailer name cs with
      | some (pre, tc, rest) => some (c :: pre, tc, rest)
      | none => none

/-- Greedy `(?P<service>[A-Za-z ]+)` loop: name lengths are tried longest
first; for each candidate the bill is lazy and at least one character. -/
def serviceNameAux (cs : List Char) : Nat → Option (ServiceM × List Char)
  | 0 => none
  | s + 1 =>
    (match cs.drop (s + 1) with
     | c :: r1 =>
       match findTrailer (cs.take (s + 1)) r1 with
       | some (pre, (tot, cr), rest) =>
         some (⟨cs.take (s + 1), c :: pre, tot, cr⟩, rest)
       | none => none
     | [] => none) <|> serviceNameAux cs s

/-- Match `SERVICE_REGEX` at the head of the text. -/
def matchService (cs : List Char) : Option (ServiceM × List Char) :=
  serviceNameAux cs (cs.takeWhile isServiceChar).length

/-- `re.finditer(SERVICE_REGEX, ·)` with fuel (each step consumes at
least one character, so `cs.length + 1` suffices). -/
def serviceFindAux : Nat → List Char → List ServiceM
  | 0, _ => []
  | f + 1, cs =>
    match matchService cs with
    | some (m, rest) => m :: serviceFindAux f rest
    | none =>
      match cs with
      | [] => []
      | _ :: t => serviceFindAux f t

def serviceFind (cs : List Char) : List ServiceM := serviceFindAux (cs.length + 1) cs

/-- A parsed service: printed total (signed) and usage parts. -/
structure Service where
  total : ℚ
  parts : List UsagePart
deriving Repr, DecidableEq

/-- `services[service_name] = ...` on a Python dict: replace in place if
the key exists (keeping its position), else append. -/
def upsert : List (List Char × Service) → List Char → Service → List (List Char × Service)
  | [], k, v => [(k, v)]
  | (k', v') :: t, k, v => if k' = k then (k, v) :: t else (k', v') :: upsert t k v

/-- The per-service body of the `_parse_services` loop: credit sign flip
and solid-waste normalization, then `_parse_service_bill`. -/
def mkService (m : ServiceM) : Except String Service :=
  match parseFloatQ m.totG with
  | none => .error "MalformedNumeric"
  | some mag =>
    match parse_service_bill
        (if containsSub "Solid Waste".data m.name then normalize_solid_waste_text m.bill
         else m.bill) with
    | .error e => .error e
    | .ok parts => .ok ⟨if m.credit then -mag else mag, parts⟩

def servicesGo : List ServiceM → List (List Char × Service) →
    Except String (List (List Char × Service))
  | [], acc => .ok acc
  | m :: ms, acc =>
    match mkService m with
    | .error e => .error e
    | .ok s => servicesGo ms (upsert acc m.name s)

/-- `_parse_services`. -/
def parse_services (cs : List Char) : Except String (List (List Char × Service)) :=
  servicesGo (serviceFind cs) []

/-! ### `HEADER_REGEX` (`_parse_header`) -/

/-- Last occurrence of `Current billing: \d+\.\d{2}` (the greedy
`(?:.|\n)*` before it prefers the longest gap). -/
def findLastBilling : List Char → Option (List Char)
  | [] => none
  | c :: cs =>
    match findLastBilling cs with
    | some t => some t
    | none =>
      match chompLit "Current billing: ".data (c :: cs) with
      | some r1 => (chompNumDot r1).map Prod.fst
      | none => none

/-- Match `HEADER_REGEX` at the head: literal, `[A-Za-z]+ \d{2}, \d{4}`
(deterministic: the greedy letter run cannot trade letters for the
following space), then the last billing amount. -/
def matchHeaderAt (cs : List Char) : Option (List Char × List Char) :=
  match chompLit "DUE DATE: ".data cs with
  | some r1 =>
    let ls := r1.takeWhile Char.isAlpha
    if ls.isEmpty then none else
    match r1.drop ls.length with
    | s1 :: d1 :: d2 :: cm :: s2 :: y1 :: y2 :: y3 :: y4 :: rest =>
      if s1 = ' ' && d1.isDigit && d2.isDigit && cm = ',' && s2 = ' ' && y1.isDigit
          && y2.isDigit && y3.isDigit && y4.isDigit then
        match findLastBilling rest with
        | some tot => some (ls ++ s1 :: d1 :: d2 :: cm :: s2 :: y1 :: y2 :: y3 :: y4 :: [], tot)
        | none => none
      else none
    | _ => none
  | none => none

/-- `re.search(HEADER_REGEX, ·)` (leftmost match). -/
def findHeader : List Char → Option (List Char × List Char)
  | [] => none
  | c :: cs =>
    match matchHeaderAt (c :: cs) with
    | some r => some r
    | none => findHeader cs

structure HeaderOut where
  due_date : List Char
  total : ℚ
deriving Repr, DecidableEq

/-- `_parse_header`: raises `ValueError("Could not parse bill header.")`
when the pattern does not match. -/
def parse_header (cs : List Char) : Except String HeaderOut :=
  match findHeader cs with
  | none => .error "Could not parse bill header."
  | some (d, tot) =>
    match parseFloatQ tot with
    | some q => .ok ⟨d, q⟩
    | none => .error "MalformedNumeric"

/-! ### `_validate_bill` and `parse` -/

/-- The observable warnings of `_validate_bill` (`log.warning` calls). -/
inductive Warning
  | billTotal (servicesSum headerTotal : ℚ)
  | adjustment (service : List Char) (found expected : ℚ)
deriving Repr, DecidableEq

/-- `math.isclose(a, b, rel_tol=tol)` with the default `abs_tol = 0`. -/
def iscloseRel (a b tol : ℚ) : Bool := decide (|a - b| ≤ tol * max |a| |b|)

/-- `math.isclose` with its default `rel_tol = 1e-9`. -/
def iscloseDefault (a b : ℚ) : Bool := iscloseRel a b (1 / 1000000000)

/-- `"adjustment" in service.lower()`. -/
def isAdjustment (name : List Char) : Bool :=
  containsSub "adjustment".data (lowerL name)

/-- Sum of item costs over all parts of a service. -/
def itemsSum (s : Service) : ℚ := (s.parts.map (fun p => (p.items.map LineItem.cost).sum)).sum

/-- Sum of the stored service totals. -/
def servicesSum (svcs : List (List Char × Service)) : ℚ :=
  (svcs.map (fun p => p.2.total)).sum

/-- The per-service loop of `_validate_bill`: adjustment services warn on
mismatch, any other mismatch trips the `assert`. -/
def validateServices : List (List Char × Service) → Except String (List Warning)
  | [] => .ok []
  | (n, s) :: rest =>
    if isAdjustment n then
      if iscloseDefault (itemsSum s) s.total then validateServices rest
      else
        match validateServices rest with
        | .error e => .error e
        | .ok ws => .ok (Warning.adjustment n (itemsSum s) s.total :: ws)
    else
      if iscloseDefault (itemsSum s) s.total then validateServices rest
      else .error "Service total mismatch"

/-- The parsed bill record returned by `parse`. -/
structure ParsedBill where
  due_date : List Char
  total : ℚ
  services : List (List Char × Service)
deriving Repr, DecidableEq

/-- `_validate_bill`: the bill-level 5% reconciliation only ever logs a
warning; the per-service loop can abort. -/
def validate_bill (b : ParsedBill) : Except String (List Warning) :=
  match validateServices b.services with
  | .error e => .error e
  | .ok ws =>
    .ok ((if iscloseRel (servicesSum b.services) b.total (1 / 20) then []
          else [Warning.billTotal (servicesSum b.services) b.total]) ++ ws)

/-- `BillParser.parse` on the extracted header and body text: build the
structured bill, validate it, and return it together with the warnings. -/
def parse (hdr body : List Char) : Except String (ParsedBill × List Warning) :=
  match parse_header hdr with
  | .error e => .error e
  | .ok h =>
    match parse_services body with
    | .error e => .error e
    | .ok svcs =>
      match validate_bill ⟨h.due_date, h.total, svcs⟩ with
      | .error e => .error e
      | .ok ws => .ok (⟨h.due_date, h.total, svcs⟩, ws)

/-- Python dicts have at most one entry per key. -/
def NodupKeys (l : List (List Char × Service)) : Prop :=
  l.Pairwise (fun a b => a.1 ≠ b.1)

/-! ### Concrete data for the witnesses -/

def wItem (d : List Char) (c : ℚ) : LineItem :=
  ⟨d, c, none, none, none, none, none, none, none⟩

def wPart (its : List LineItem) : UsagePart :=
  ⟨its, none, none, none, none, none, none, none⟩

def wHdr10 : List Char := "DUE DATE: Dec 15, 2024\nCurrent billing: 10.00".data

def wBodyOk : List Char := "Water\nUse 10.00\nCurrent Water: 10.00".data

def wBodyBad : List Char := "Water\nUse 9.00\nCurrent Water: 10.00".data

def wSvcOk : List (List Char × Service) :=
  [("Water".data, ⟨10, [wPart [wItem "Use".data 10]]⟩)]

def wBillOk : ParsedBill := ⟨"Dec 15, 2024".data, 10, wSvcOk⟩

def wSvcBad : List (List Char × Service) :=
  [("Water".data, ⟨10, [wPart [wItem "Use".data 9]]⟩)]

def wHdr55 : List Char := "DUE DATE: Dec 15, 2024\nCurrent billing: 55.00".data

def wBodyAdj : List Char := "Adjustments\nFoo 40.00\nCurrent Adjustments: 55.00".data

def wSvcAdj : List (List Char × Service) :=
  [("Adjustments".data, ⟨55, [wPart [wItem "Foo".data 40]]⟩)]

def wHdr100 : List Char := "DUE DATE: Dec 15, 2024\nCurrent billing: 100.00".data

def wNine : List Char := "junk\nJan 01, 2024 Feb 01, 2024 3.00\nUse 3.00\n".data

def wNineBs : List (UsageG × List Char) :=
  [(⟨"Jan 01, 2024".data, "Feb 01, 2024".data, "3.00".data, none, none⟩,
    "\nUse 3.00\n".data)]

def wBodyDup : List Char :=
  "Water\nA 1.00\nCurrent Water: 1.00\nWater\nB 2.00\nCurrent Water: 2.00\n".data

def wSvcDup : List (List Char × Service) :=
  [("Water".data, ⟨2, [wPart [wItem "B".data 2]]⟩)]

def wBodyCr : List Char := "Foo\nBar 5.00 CR\nCurrent Foo: 5.00 CR".data

def wSvcCr : List (List Char × Service) :=
  [("Foo".data, ⟨-5, [wPart [wItem "Bar".data (-5)]]⟩)]

def wItemsCr : List Char := "Bar 5.00 CR".data

def wTrashIt : LineItem := wItem "2-Garbage 32 Gal".data 5

def wPlainIt : LineItem := wItem "Garbage 32".data 5

/-! ### Witnesses -/

/-! ## Theorems -/

/-! ### Support lemmas about stripping and line splitting -/

theorem dropWhile_head?_not {p : Char → Bool} :
    ∀ {l : List Char} {a : Char}, (l.dropWhile p).head? = some a → p a = false := by
  intro l
  induction l with
  | nil => intro a h; simp [List.dropWhile] at h
  | cons c t ih =>
    intro a h
    rw [List.dropWhile_cons] at h
    by_cases hc : p c
    · rw [if_pos hc] at h; exact ih h
    · rw [if_neg hc] at h
      simp at h
      subst h
      simp only [Bool.not_eq_true] at hc
      exact hc

theorem mem_dropWhile {p : Char → Bool} :
    ∀ {l : List Char} {x : Char}, x ∈ l.dropWhile p → x ∈ l := by
  intro l
  induction l with
  | nil => intro x h; simp [List.dropWhile] at h
  | cons c t ih =>
    intro x h
    rw [List.dropWhile_cons] at h
    by_cases hc : p c
    · rw [if_pos hc] at h; exact List.mem_cons_of_mem _ (ih h)
    · rw [if_neg hc] at h; exact h

theorem dropWhile_eq_self {p : Char → Bool} {l : List Char}
    (h : ∀ a, l.head? = some a → p a = false) : l.dropWhile p = l := by
  cases l with
  | nil => rfl
  | cons c t =>
    have := h c rfl
    simp [List.dropWhile_cons, this]

theorem mem_dropTr : ∀ {l : List Char} {x : Char}, x ∈ dropTr l → x ∈ l := by
  intro l
  induction l with
  | nil => intro x h; simp [dropTr] at h
  | cons c t ih =>
    intro x h
    rw [dropTr] at h
    rcases hm : dropTr t with - | ⟨r0, rt⟩
    · rw [hm] at h
      by_cases hc : pySpace c
      · rw [if_pos hc] at h; simp at h
      · rw [if_neg hc] at h
        simp at h
        simp [h]
    · rw [hm] at h
      rcases List.mem_cons.mp h with h1 | h2
      · simp [h1]
      · refine List.mem_cons_of_mem _ (ih ?_)
        rw [hm]
        exact h2

theorem dropTr_head? : ∀ {l : List Char} {a : Char},
    (dropTr l).head? = some a → l.head? = some a := by
  intro l
  induction l with
  | nil => intro a h; simp [dropTr] at h
  | cons c t _ =>
    intro a h
    rw [dropTr] at h
    rcases hm : dropTr t with - | ⟨r0, rt⟩
    · rw [hm] at h
      by_cases hc : pySpace c
      · simp [hc] at h
      · simp [hc] at h; simp [h]
    · rw [hm] at h
      simp at h
      simp [h]

theorem dropTr_getLast?_not : ∀ {l : List Char} {a : Char},
    (dropTr l).getLast? = some a → pySpace a = false := by
  intro l
  induction l with
  | nil => intro a h; simp [dropTr] at h
  | cons c t ih =>
    intro a h
    rw [dropTr] at h
    rcases hm : dropTr t with - | ⟨r0, rt⟩
    · rw [hm] at h
      by_cases hc : pySpace c
      · simp [hc] at h
      · simp [hc] at h
        simp [← h]
        simp [Bool.not_eq_true] at hc
        exact hc
    · rw [hm] at h
      rw [List.getLast?_cons_cons] at h
      exact ih (hm ▸ h)

theorem dropTr_eq_self : ∀ {l : List Char},
    (∀ a, l.getLast? = some a → pySpace a = false) → dropTr l = l := by
  intro l
  induction l with
  | nil => intro _; rfl
  | cons c t ih =>
    intro h
    rw [dropTr]
    cases t with
    | nil =>
      have := h c rfl
      simp [dropTr, this]
    | cons d u =>
      have ht : dropTr (d :: u) = d :: u := by
        apply ih
        intro a ha
        exact h a (by rw [List.getLast?_cons_cons]; exact ha)
      rw [ht]

theorem mem_pyStrip {l : List Char} {x : Char} (h : x ∈ pyStrip l) : x ∈ l :=
  mem_dropWhile (mem_dropTr h)

theorem pyStrip_head?_not {l : List Char} {a : Char}
    (h : (pyStrip l).head? = some a) : pySpace a = false :=
  dropWhile_head?_not (dropTr_head? h)

theorem pyStrip_getLast?_not {l : List Char} {a : Char}
    (h : (pyStrip l).getLast? = some a) : pySpace a = false :=
  dropTr_getLast?_not h

theorem pyStrip_eq_self {l : List Char}
    (h1 : ∀ a, l.head? = some a → pySpace a = false)
    (h2 : ∀ a, l.getLast? = some a → pySpace a = false) : pyStrip l = l := by
  unfold pyStrip
  rw [dropWhile_eq_self h1]
  exact dropTr_eq_self h2

theorem splitNl_ne_nil : ∀ cs : List Char, splitNl cs ≠ [] := by
  intro cs
  induction cs with
  | nil => simp [splitNl]
  | cons c t ih =>
    rw [splitNl]
    by_cases hc : c = '\n'
    · simp [hc]
    · simp only [hc, if_false]
      rcases hm : splitNl t with - | ⟨a, as⟩
      · simp
      · simp

theorem splitNl_no_nl : ∀ (cs : List Char), ∀ l ∈ splitNl cs, '\n' ∉ l := by
  intro cs
  induction cs with
  | nil => intro l hl; simp [splitNl] at hl; simp [hl]
  | cons c t ih =>
    intro l hl
    rw [splitNl] at hl
    by_cases hc : c = '\n'
    · simp only [hc, if_pos rfl] at hl
      rcases List.mem_cons.mp hl with h1 | h2
      · simp [h1]
      · exact ih l h2
    · simp only [hc, if_false] at hl
      rcases hm : splitNl t with - | ⟨a, as⟩
      · exact absurd hm (splitNl_ne_nil t)
      · rw [hm] at hl
        rcases List.mem_cons.mp hl with h1 | h2
        · subst h1
          intro hmem
          rcases List.mem_cons.mp hmem with h3 | h4
          · exact hc h3.symm
          · exact ih a (hm ▸ List.mem_cons_self a as) h4
        · exact ih l (hm ▸ List.mem_cons_of_mem a h2)

theorem splitNl_of_no_nl : ∀ {l : List Char}, '\n' ∉ l → splitNl l = [l] := by
  intro l
  induction l with
  | nil => intro _; rfl
  | cons c t ih =>
    intro h
    have hc : c ≠ '\n' := fun hh => h (hh ▸ List.mem_cons_self c t)
    have ht : '\n' ∉ t := fun hh => h (List.mem_cons_of_mem c hh)
    rw [splitNl]
    simp only [if_neg (fun hh => hc hh), ih ht]

theorem splitNl_append_nl : ∀ {l : List Char} (r : List Char), '\n' ∉ l →
    splitNl (l ++ '\n' :: r) = l :: splitNl r := by
  intro l
  induction l with
  | nil => intro r _; simp [splitNl]
  | cons c t ih =>
    intro r h
    have hc : c ≠ '\n' := fun hh => h (hh ▸ List.mem_cons_self c t)
    have ht : '\n' ∉ t := fun hh => h (List.mem_cons_of_mem c hh)
    rw [List.cons_append, splitNl]
    simp only [if_neg (fun hh => hc hh), ih r ht]

theorem splitNl_joinNl : ∀ {ls : List (List Char)}, ls ≠ [] →
    (∀ l ∈ ls, '\n' ∉ l) → splitNl (joinNl ls) = ls := by
  intro ls
  induction ls with
  | nil => intro h; exact absurd rfl h
  | cons l t ih =>
    intro _ hnl
    cases t with
    | nil => exact splitNl_of_no_nl (hnl l (List.mem_cons_self l []))
    | cons m u =>
      rw [joinNl, splitNl_append_nl _ (hnl l (List.mem_cons_self l _)),
        ih (List.cons_ne_nil m u) (fun x hx => hnl x (List.mem_cons_of_mem l hx))]
      exact List.cons_ne_nil m u

theorem goodLine_strip {raw : List Char} (hnl : '\n' ∉ raw)
    (hne : pyStrip raw ≠ []) : GoodLine (pyStrip raw) := by
  refine ⟨hne, fun a ha => pyStrip_head?_not ha, fun a ha => pyStrip_getLast?_not ha, ?_⟩
  intro hmem
  exact hnl (mem_pyStrip hmem)

theorem head?_append_left {l r : List Char} (h : l ≠ []) :
    (l ++ r).head? = l.head? := by
  cases l with
  | nil => exact absurd rfl h
  | cons c t => rfl

theorem getLast?_append_right {r : List Char} (h : r ≠ []) :
    ∀ l : List Char, (l ++ r).getLast? = r.getLast? := by
  intro l
  induction l with
  | nil => rfl
  | cons c t ih =>
    rw [List.cons_append]
    have : t ++ r ≠ [] := by
      intro hh
      rcases List.append_eq_nil.mp hh with ⟨-, h2⟩
      exact h h2
    rcases hm : t ++ r with - | ⟨x, xs⟩
    · exact absurd hm this
    · rw [List.getLast?_cons_cons, ← hm, ih]

theorem goodLine_join {p l : List Char} (hp : GoodLine p) (hl : GoodLine l) :
    GoodLine (p ++ ' ' :: l) := by
  obtain ⟨hp1, hp2, hp3, hp4⟩ := hp
  obtain ⟨hl1, hl2, hl3, hl4⟩ := hl
  refine ⟨by simp, ?_, ?_, ?_⟩
  · intro a ha
    rw [head?_append_left hp1] at ha
    exact hp2 a ha
  · intro a ha
    have : p ++ ' ' :: l = (p ++ [' ']) ++ l := by simp
    rw [this, getLast?_append_right hl1] at ha
    exact hl3 a ha
  · intro hmem
    rcases List.mem_append.mp hmem with h1 | h2
    · exact hp4 h1
    · rcases List.mem_cons.mp h2 with h3 | h4
      · simp at h3
      · exact hl4 h4

theorem normStep_good {acc : List (List Char)} {raw : List Char}
    (hacc : ∀ l ∈ acc, GoodLine l) (hnl : '\n' ∉ raw) :
    ∀ l ∈ normStep acc raw, GoodLine l := by
  intro l hl
  rw [normStep.eq_def] at hl
  simp only [] at hl
  by_cases h0 : pyStrip raw = []
  · simp only [h0, if_pos rfl] at hl
    exact hacc l hl
  · have hgs : GoodLine (pyStrip raw) := goodLine_strip hnl h0
    simp only [h0, if_neg h0] at hl
    by_cases h2 : twoDatesB (pyStrip raw)
    · simp only [h2, if_pos rfl] at hl
      rcases List.mem_cons.mp hl with h3 | h4
      · exact h3 ▸ hgs
      · exact hacc l h4
    · simp only [h2, if_neg h2] at hl
      rcases hm : acc with - | ⟨prev, rest⟩
      · rw [hm] at hl
        simp at hl
        exact hl ▸ hgs
      · rw [hm] at hl
        have hprev : GoodLine prev := hacc prev (hm ▸ List.mem_cons_self prev rest)
        have hrest : ∀ x ∈ rest, GoodLine x :=
          fun x hx => hacc x (hm ▸ List.mem_cons_of_mem prev hx)
        by_cases hcont : (costOnlyB (pyStrip raw) || contWordB (pyStrip raw)
            || (singleDateB (pyStrip raw) && !twoDatesB prev && singleDateB prev)) = true
        · simp only [hcont, if_pos rfl] at hl
          rcases List.mem_cons.mp hl with h3 | h4
          · exact h3 ▸ goodLine_join hprev hgs
          · exact hrest l h4
        · simp only [hcont, if_neg hcont] at hl
          by_cases hcost : hasCostSuffixB prev
          · simp only [hcost, if_pos rfl] at hl
            rcases List.mem_cons.mp hl with h3 | h4
            · exact h3 ▸ hgs
            · rcases List.mem_cons.mp h4 with h5 | h6
              · exact h5 ▸ hprev
              · exact hrest l h6
          · simp only [hcost, if_neg hcost] at hl
            rcases List.mem_cons.mp hl with h3 | h4
            · exact h3 ▸ goodLine_join hprev hgs
            · exact hrest l h4

theorem foldl_normStep_good : ∀ (ls : List (List Char)) (acc : List (List Char)),
    (∀ raw ∈ ls, '\n' ∉ raw) → (∀ l ∈ acc, GoodLine l) →
    ∀ l ∈ ls.foldl normStep acc, GoodLine l := by
  intro ls
  induction ls with
  | nil => intro acc _ hacc l hl; exact hacc l hl
  | cons raw t ih =>
    intro acc hnl hacc l hl
    rw [List.foldl_cons] at hl
    exact ih _ (fun x hx => hnl x (List.mem_cons_of_mem raw hx))
      (normStep_good hacc (hnl raw (List.mem_cons_self raw t))) l hl

theorem normCore_good {cs : List Char} :
    ∀ l ∈ normCore (splitNl cs), GoodLine l := by
  intro l hl
  rw [normCore, List.mem_reverse] at hl
  exact foldl_normStep_good (splitNl cs) [] (splitNl_no_nl cs) (by simp) l hl

theorem foldl_normStep_twoDates :
    ∀ (ls : List (List Char)) (acc : List (List Char)),
    (∀ l ∈ ls, pyStrip l = l ∧ l ≠ [] ∧ twoDatesB l = true) →
    ls.foldl normStep acc = ls.reverse ++ acc := by
  intro ls
  induction ls with
  | nil => intro acc _; rfl
  | cons l t ih =>
    intro acc h
    obtain ⟨hs, hne, htwo⟩ := h l (List.mem_cons_self l t)
    rw [List.foldl_cons]
    have hstep : normStep acc l = l :: acc := by
      rw [normStep.eq_def, hs]
      simp [hne, htwo]
    rw [hstep, ih (l :: acc) (fun x hx => h x (List.mem_cons_of_mem l hx))]
    simp

/-- C5 (amended): the solid-waste line normalizer is idempotent on every
input whose normalized output consists solely of lines beginning with two
date tokens (the documented complete-item shape); it is not idempotent on
arbitrary strings. -/
theorem normalize_solid_waste_idempotent_of_two_dates (cs : List Char)
    (h : ∀ l ∈ normCore (splitNl cs), twoDatesB l = true) :
    normalize_solid_waste_text (normalize_solid_waste_text cs) =
      normalize_solid_waste_text cs := by
  have hgood := @normCore_good cs
  unfold normalize_solid_waste_text
  by_cases hout : normCore (splitNl cs) = []
  · rw [hout]
    rfl
  · rw [splitNl_joinNl hout (fun l hl => (hgood l hl).2.2.2)]
    conv_lhs => rw [normCore, foldl_normStep_twoDates _ []
      (fun l hl => ⟨pyStrip_eq_self (hgood l hl).2.1 (hgood l hl).2.2.1,
        (hgood l hl).1, h l hl⟩)]
    rw [List.append_nil, List.reverse_reverse]

/-- C5 counterexample: `normalize(normalize x) ≠ normalize x` for the
input below.  The first pass appends `"Oct"` (its predecessor ends in a
cost) and then, lacking a trailing cost, absorbs the following line into
it, creating a line that now begins with a single date token; the second
pass treats that line as an end-date continuation of its predecessor and
joins the two, so the claimed idempotency fails. -/
theorem normalize_solid_waste_not_idempotent :
    normalize_solid_waste_text (normalize_solid_waste_text
        ("Oct 01, 2025 5.00\nOct\n01, 2025 x 3.00".data)) ≠
      normalize_solid_waste_text ("Oct 01, 2025 5.00\nOct\n01, 2025 x 3.00".data) := by
  decide

/-- C5 witness for the amended statement, at a concrete single-item
solid-waste section taken from the source's docstring. -/
theorem normalize_solid_waste_idempotent_witness :
    (∀ l ∈ normCore (splitNl
        ("Oct 01, 2025Nov 30, 2025   1-Garbage 20 Gal 1X Weekly69.30".data)),
      twoDatesB l = true) ∧
    normalize_solid_waste_text (normalize_solid_waste_text
        ("Oct 01, 2025Nov 30, 2025   1-Garbage 20 Gal 1X Weekly69.30".data)) =
      normalize_solid_waste_text
        ("Oct 01, 2025Nov 30, 2025   1-Garbage 20 Gal 1X Weekly69.30".data) :=
  ⟨by decide, normalize_solid_waste_idempotent_of_two_dates _ (by decide)⟩

/-! ### Shared regex building blocks

`chompDateW12` embeds `\w{3} \d{2}, \d{4}` (used by `USAGE_REGEX` and
`ITEM_REGEX`); `chompNumDot` embeds the greedy `\d+\.\d{2}` (escaped dot:
all leading digits, then a dot, then two digits — shorter digit prefixes
cannot match because the next character would be a digit, not a dot);
`chompNumAny` embeds the greedy `\d+.\d{2}` with the source's unescaped
dot (the largest digit prefix `k ≥ 1` followed by one arbitrary character
and two digits). -/

/-! ### Support lemmas for the matcher and validation layer -/

theorem parseFloatQ_nonneg {l : List Char} {q : ℚ} (h : parseFloatQ l = some q) :
    0 ≤ q := by
  unfold parseFloatQ at h
  split at h
  · exact Option.noConfusion h
  · split at h
    · simp only [Option.some.injEq] at h
      rw [← h]; positivity
    · split at h
      · simp only [Option.some.injEq] at h
        rw [← h]; positivity
      · exact Option.noConfusion h
    · exact Option.noConfusion h

theorem exMapM_ok_mem {α β : Type} {f : α → Except String β} :
    ∀ {l : List α} {ys : List β}, exMapM f l = .ok ys → ∀ y ∈ ys, ∃ x ∈ l, f x = .ok y := by
  intro l
  induction l with
  | nil =>
    intro ys h y hy
    simp [exMapM] at h
    subst h
    simp at hy
  | cons x t ih =>
    intro ys h y hy
    rw [exMapM] at h
    rcases hx : f x with e | z <;> rw [hx] at h
    · exact Except.noConfusion h
    · rcases ht : exMapM f t with e | zs <;> rw [ht] at h
      · exact Except.noConfusion h
      · simp only [Except.ok.injEq] at h
        subst h
        rcases List.mem_cons.mp hy with h1 | h2
        · exact ⟨x, List.mem_cons_self x t, h1 ▸ hx⟩
        · obtain ⟨x', hx', hfx'⟩ := ih ht y h2
          exact ⟨x', List.mem_cons_of_mem x hx', hfx'⟩

theorem parse_trash_cost (it : LineItem) : (parse_trash it).cost = it.cost := by
  unfold parse_trash
  rcases matchTrash it.description with - | ⟨ct, d, sz⟩ <;> rfl

theorem parse_trash_keeps {it : LineItem} (h : matchTrash it.description = none) :
    parse_trash it = it := by
  unfold parse_trash
  rw [h]

/-! ### Length bookkeeping for `USAGE_REGEX` (fuel adequacy) -/

theorem chompDateW12_length {cs d rest} (h : chompDateW12 cs = some (d, rest)) :
    cs.length = rest.length + 12 := by
  unfold chompDateW12 at h
  split at h
  · split at h
    · simp at h
      obtain ⟨-, h2⟩ := h
      subst h2
      simp
    · simp at h
  · simp at h

theorem chompChar_length {c cs rest} (h : chompChar c cs = some rest) :
    cs.length = rest.length + 1 := by
  unfold chompChar at h
  split at h
  · simp at h
  · split at h
    · simp at h
      subst h
      simp
    · simp at h

theorem chompNumAnyAux_length {cs : List Char} :
    ∀ {k g rest}, chompNumAnyAux cs k = some (g, rest) → rest.length + 4 ≤ cs.length := by
  intro k
  induction k with
  | zero => intro g rest h; simp [chompNumAnyAux] at h
  | succ k ih =>
    intro g rest h
    rw [chompNumAnyAux] at h
    split at h
    · rename_i c a b t3 heq
      split at h
      · simp only [Option.some.injEq, Prod.mk.injEq] at h
        obtain ⟨-, h2⟩ := h
        subst h2
        have hlen : (cs.drop (k + 1)).length = cs.length - (k + 1) := by simp
        rw [heq] at hlen
        simp at hlen
        omega
      · exact ih h
    · exact ih h

theorem chompNumAny_length {cs g rest} (h : chompNumAny cs = some (g, rest)) :
    rest.length + 4 ≤ cs.length :=
  chompNumAnyAux_length h

theorem skipStar_length (cs : List Char) : (skipStar cs).length ≤ cs.length := by
  unfold skipStar
  split
  · simp
  · exact Nat.le_refl _

theorem chompMeterAux_length {cs : List Char} :
    ∀ {k g rest}, chompMeterAux cs k = some (g, rest) → rest.length ≤ cs.length := by
  intro k
  induction k with
  | zero => intro g rest h; simp [chompMeterAux] at h
  | succ k ih =>
    intro g rest h
    rw [chompMeterAux] at h
    split at h
    · rename_i c a b t3 heq
      split at h
      · split at h
        · rename_i r2 heq2
          split at h
          · rename_i em r3 heq3
            simp only [Option.some.injEq, Prod.mk.injEq] at h
            obtain ⟨-, h2⟩ := h
            subst h2
            have h3 : r3.length + 4 ≤ r2.length := chompNumAny_length heq3
            have h4 : (skipStar r3).length ≤ r3.length := skipStar_length r3
            have h5 : (skipStar t3).length ≤ t3.length := skipStar_length t3
            rw [heq2] at h5
            have h6 : (cs.drop (k + 1)).length = cs.length - (k + 1) := by simp
            rw [heq] at h6
            simp at h6 h5
            omega
          · exact ih h
        · exact ih h
      · exact ih h
    · exact ih h

theorem chompMeterOpt_length (cs : List Char) :
    (chompMeterOpt cs).2.length ≤ cs.length := by
  unfold chompMeterOpt
  rcases hc : chompChar ' ' cs with - | r1
  · simp
  · have hl := chompChar_length hc
    show (match chompMeterAux r1 (r1.takeWhile Char.isDigit).length with
      | some (g, rest) => ((some g : Option (List Char × List Char)), rest)
      | none => (none, cs)).2.length ≤ cs.length
    rcases hm : chompMeterAux r1 (r1.takeWhile Char.isDigit).length with - | ⟨g, rest⟩
    · exact Nat.le_refl cs.length
    · have := chompMeterAux_length hm
      show rest.length ≤ cs.length
      omega

theorem matchUsage_length {cs : List Char} {g : UsageG} {rest : List Char}
    (h : matchUsage cs = some (g, rest)) : rest.length < cs.length := by
  unfold matchUsage at h
  split at h
  · exact Option.noConfusion h
  · rename_i d1 r1 h1
    split at h
    · exact Option.noConfusion h
    · rename_i r2 h2
      split at h
      · exact Option.noConfusion h
      · rename_i d2 r3 h3
        split at h
        · exact Option.noConfusion h
        · rename_i r4 h4
          split at h
          · exact Option.noConfusion h
          · rename_i u r5 h5
            simp only [Option.some.injEq, Prod.mk.injEq] at h
            obtain ⟨-, hrest⟩ := h
            have l1 := chompDateW12_length h1
            have l2 := chompChar_length h2
            have l3 := chompDateW12_length h3
            have l4 := chompChar_length h4
            have l5 := chompNumAny_length h5
            have l6 := skipStar_length r5
            have l7 := chompMeterOpt_length (skipStar r5)
            rw [hrest] at l7
            omega

theorem findUsage_length : ∀ {cs : List Char} {pre g after},
    findUsage cs = some (pre, g, after) → after.length < cs.length := by
  intro cs
  induction cs with
  | nil => intro pre g after h; simp [findUsage] at h
  | cons c t ih =>
    intro pre g after h
    rw [findUsage] at h
    rcases hm : matchUsage (c :: t) with - | ⟨g', rest⟩ <;> rw [hm] at h
    · rcases hf : findUsage t with - | ⟨p', g'', r'⟩ <;> rw [hf] at h
      · simp at h
      · simp at h
        obtain ⟨-, -, h3⟩ := h
        subst h3
        have := ih hf
        simp
        omega
    · simp at h
      obtain ⟨-, -, h3⟩ := h
      subst h3
      exact matchUsage_length hm

theorem findUsage_decomp : ∀ {cs : List Char} {pre g after},
    findUsage cs = some (pre, g, after) →
      cs = pre ++ cs.drop pre.length ∧
        matchUsage (cs.drop pre.length) = some (g, after) := by
  intro cs
  induction cs with
  | nil => intro pre g after h; simp [findUsage] at h
  | cons c t ih =>
    intro pre g after h
    rw [findUsage] at h
    rcases hm : matchUsage (c :: t) with - | ⟨g', rest⟩ <;> rw [hm] at h
    · rcases hf : findUsage t with - | ⟨p', g'', r'⟩ <;> rw [hf] at h
      · simp at h
      · simp at h
        obtain ⟨h1, h2, h3⟩ := h
        subst h1; subst h2; subst h3
        obtain ⟨ha, hb⟩ := ih hf
        constructor
        · simp only [List.length_cons, List.drop_succ_cons]
          rw [List.cons_append]
          exact congrArg (c :: ·) ha
        · simp only [List.length_cons, List.drop_succ_cons]
          exact hb
    · simp at h
      obtain ⟨h1, h2, h3⟩ := h
      subst h1; subst h2; subst h3
      simp
      exact hm

theorem usageSplitAux_nil (f : Nat) : usageSplitAux f [] = ([], []) := by
  cases f with
  | zero => rfl
  | succ f => rfl

theorem usageSplitAux_congr : ∀ (bound : Nat) (cs : List Char), cs.length ≤ bound →
    ∀ f g, cs.length ≤ f → cs.length ≤ g → usageSplitAux f cs = usageSplitAux g cs := by
  intro bound
  induction bound with
  | zero =>
    intro cs h f g _ _
    have hcs : cs = [] := List.eq_nil_of_length_eq_zero (Nat.le_zero.mp h)
    subst hcs
    rw [usageSplitAux_nil, usageSplitAux_nil]
  | succ n ih =>
    intro cs h f g hf hg
    cases f with
    | zero =>
      have hcs : cs = [] := List.eq_nil_of_length_eq_zero (Nat.le_zero.mp hf)
      subst hcs
      rw [usageSplitAux_nil, usageSplitAux_nil]
    | succ f' =>
      cases g with
      | zero =>
        have hcs : cs = [] := List.eq_nil_of_length_eq_zero (Nat.le_zero.mp hg)
        subst hcs
        rw [usageSplitAux_nil, usageSplitAux_nil]
      | succ g' =>
        rw [usageSplitAux, usageSplitAux]
        rcases hfu : findUsage cs with - | ⟨pre, gg, after⟩
        · rfl
        · have hlt := findUsage_length hfu
          have heq := ih after (by omega) f' g' (by omega) (by omega)
          show (pre, (gg, (usageSplitAux f' after).1) :: (usageSplitAux f' after).2) =
            (pre, (gg, (usageSplitAux g' after).1) :: (usageSplitAux g' after).2)
          rw [heq]

/-! ### Field extraction from the record builders -/

theorem mkItem_cost {g : ItemG} {it : LineItem} (h : mkItem g = .ok it) :
    ∃ mag, parseFloatQ g.costG = some mag ∧
      it.cost = (if g.credit then -mag else mag) := by
  unfold mkItem at h
  split at h
  · exact Except.noConfusion h
  · rename_i mag hmag
    split at h
    · exact Except.noConfusion h
    · split at h
      · exact Except.noConfusion h
      · simp only [Except.ok.injEq] at h
        refine ⟨mag, hmag, ?_⟩
        rw [← h, parse_trash_cost]

theorem mkService_total {m : ServiceM} {s : Service} (h : mkService m = .ok s) :
    ∃ mag, parseFloatQ m.totG = some mag ∧
      s.total = (if m.credit then -mag else mag) := by
  unfold mkService at h
  split at h
  · exact Except.noConfusion h
  · rename_i mag hmag
    split at h
    · exact Except.noConfusion h
    · simp only [Except.ok.injEq] at h
      exact ⟨mag, hmag, by rw [← h]⟩

/-! ### The services dictionary (`upsert` / `servicesGo`) -/

theorem mem_upsert : ∀ {acc : List (List Char × Service)} {k v p},
    p ∈ upsert acc k v → p = (k, v) ∨ p ∈ acc := by
  intro acc
  induction acc with
  | nil =>
    intro k v p h
    rw [upsert] at h
    simp at h
    exact Or.inl h
  | cons kv t ih =>
    intro k v p h
    rw [upsert] at h
    by_cases hk : kv.1 = k
    · rw [if_pos hk] at h
      rcases List.mem_cons.mp h with h1 | h2
      · exact Or.inl h1
      · exact Or.inr (List.mem_cons_of_mem _ h2)
    · rw [if_neg hk] at h
      rcases List.mem_cons.mp h with h1 | h2
      · exact Or.inr (h1 ▸ List.mem_cons_self _ _)
      · rcases ih h2 with h3 | h4
        · exact Or.inl h3
        · exact Or.inr (List.mem_cons_of_mem _ h4)

theorem upsert_nodup : ∀ {acc : List (List Char × Service)} {k v},
    NodupKeys acc → NodupKeys (upsert acc k v) := by
  intro acc
  induction acc with
  | nil =>
    intro k v _
    rw [upsert]
    exact List.pairwise_singleton _ _
  | cons kv t ih =>
    intro k v hnd
    rw [upsert]
    rw [NodupKeys, List.pairwise_cons] at hnd
    obtain ⟨hhead, htail⟩ := hnd
    by_cases hk : kv.1 = k
    · rw [if_pos hk]
      rw [NodupKeys, List.pairwise_cons]
      exact ⟨fun b hb => by rw [← hk]; exact hhead b hb, htail⟩
    · rw [if_neg hk]
      rw [NodupKeys, List.pairwise_cons]
      refine ⟨?_, ih htail⟩
      intro b hb
      rcases mem_upsert hb with h1 | h2
      · rw [h1]
        exact hk
      · exact hhead b h2

theorem upsert_filter_self : ∀ {acc : List (List Char × Service)} {k v},
    NodupKeys acc → (upsert acc k v).filter (fun p => p.1 = k) = [(k, v)] := by
  intro acc
  induction acc with
  | nil =>
    intro k v _
    rw [upsert]
    simp
  | cons kv t ih =>
    intro k v hnd
    rw [upsert]
    rw [NodupKeys, List.pairwise_cons] at hnd
    obtain ⟨hhead, htail⟩ := hnd
    by_cases hk : kv.1 = k
    · rw [if_pos hk]
      rw [List.filter_cons]
      simp only [decide_eq_true_eq, if_pos rfl]
      have : t.filter (fun p => p.1 = k) = [] := by
        rw [List.filter_eq_nil_iff]
        intro b hb
        simp only [decide_eq_true_eq]
        intro hbk
        exact hhead b hb (hk.trans hbk.symm)
      simp [this]
    · rw [if_neg hk]
      rw [List.filter_cons]
      simp only [decide_eq_true_eq, hk, if_false]
      exact ih htail

theorem upsert_filter_other : ∀ {acc : List (List Char × Service)} {k v n},
    n ≠ k → (upsert acc k v).filter (fun p => p.1 = n) =
      acc.filter (fun p => p.1 = n) := by
  intro acc
  induction acc with
  | nil =>
    intro k v n hne
    rw [upsert]
    have h1 : ¬(k = n) := fun h => hne h.symm
    simp [h1]
  | cons kv t ih =>
    intro k v n hne
    obtain ⟨k1, v1⟩ := kv
    rw [upsert]
    have h1 : ¬(k = n) := fun h => hne h.symm
    by_cases hk : k1 = k
    · rw [if_pos hk]
      rw [List.filter_cons, List.filter_cons]
      have h2 : ¬(k1 = n) := by rw [hk]; exact h1
      simp only [decide_eq_true_eq]
      rw [if_neg h1, if_neg h2]
    · rw [if_neg hk]
      rw [List.filter_cons, List.filter_cons]
      simp only [decide_eq_true_eq]
      by_cases hn : k1 = n
      · rw [if_pos hn, if_pos hn, ih hne]
      · rw [if_neg hn, if_neg hn]
        exact ih hne

theorem servicesGo_mem : ∀ {ms : List ServiceM} {acc svcs},
    servicesGo ms acc = .ok svcs → ∀ p, p ∈ svcs →
      p ∈ acc ∨ ∃ m ∈ ms, m.name = p.1 ∧ mkService m = .ok p.2 := by
  intro ms
  induction ms with
  | nil =>
    intro acc svcs h p hp
    rw [servicesGo] at h
    simp only [Except.ok.injEq] at h
    subst h
    exact Or.inl hp
  | cons m0 t ih =>
    intro acc svcs h p hp
    rw [servicesGo] at h
    rcases hm : mkService m0 with e | s0 <;> rw [hm] at h
    · exact Except.noConfusion h
    · rcases ih h p hp with h1 | ⟨m', hm', hname, hok⟩
      · rcases mem_upsert h1 with h2 | h3
        · refine Or.inr ⟨m0, List.mem_cons_self _ _, ?_, ?_⟩
          · rw [h2]
          · rw [h2]
            exact hm
        · exact Or.inl h3
      · exact Or.inr ⟨m', List.mem_cons_of_mem _ hm', hname, hok⟩

theorem servicesGo_filter : ∀ {ms : List ServiceM} {acc svcs},
    servicesGo ms acc = .ok svcs → NodupKeys acc → ∀ n : List Char,
      ((ms.filter (fun m => m.name = n)) = [] →
        svcs.filter (fun p => p.1 = n) = acc.filter (fun p => p.1 = n)) ∧
      (∀ m, (ms.filter (fun m => m.name = n)).getLast? = some m →
        ∃ s, mkService m = .ok s ∧ svcs.filter (fun p => p.1 = n) = [(n, s)]) := by
  intro ms
  induction ms with
  | nil =>
    intro acc svcs h _ n
    rw [servicesGo] at h
    simp only [Except.ok.injEq] at h
    subst h
    exact ⟨fun _ => rfl, fun m hm => by simp at hm⟩
  | cons m0 t ih =>
    intro acc svcs h hnd n
    rw [servicesGo] at h
    rcases hm : mkService m0 with e | s0 <;> rw [hm] at h
    · exact Except.noConfusion h
    · have IH := ih h (upsert_nodup hnd)
      by_cases hname : m0.name = n
      · constructor
        · intro hnil
          rw [List.filter_cons] at hnil
          simp [hname] at hnil
        · intro m hlast
          rw [List.filter_cons] at hlast
          simp only [decide_eq_true_eq] at hlast
          rw [if_pos hname] at hlast
          rcases hmsf : t.filter (fun m => m.name = n) with - | ⟨m1, msf⟩
          · rw [hmsf] at hlast
            simp at hlast
            subst hlast
            obtain ⟨IH1, -⟩ := IH n
            refine ⟨s0, hm, ?_⟩
            rw [IH1 hmsf]
            rw [← hname]
            exact upsert_filter_self hnd
          · rw [hmsf, List.getLast?_cons_cons] at hlast
            obtain ⟨-, IH2⟩ := IH n
            refine IH2 m ?_
            rw [hmsf]
            exact hlast
      · rw [List.filter_cons]
        simp only [hname, decide_eq_true_eq, if_false]
        obtain ⟨IH1, IH2⟩ := IH n
        constructor
        · intro hnil
          rw [IH1 hnil]
          exact upsert_filter_other (fun hh => hname hh.symm)
        · exact IH2

/-! ### `_validate_bill` structure lemmas -/

theorem validateServices_ok_nonadj : ∀ {l ws}, validateServices l = .ok ws →
    ∀ n s, (n, s) ∈ l → isAdjustment n = false →
      iscloseDefault (itemsSum s) s.total = true := by
  intro l
  induction l with
  | nil => intro ws _ n s hmem; simp at hmem
  | cons p t ih =>
    intro ws h n s hmem hadj
    obtain ⟨n', s'⟩ := p
    rw [validateServices] at h
    by_cases ha : isAdjustment n'
    · rw [if_pos ha] at h
      by_cases hcl : iscloseDefault (itemsSum s') s'.total
      · rw [if_pos hcl] at h
        rcases List.mem_cons.mp hmem with h1 | h2
        · simp only [Prod.mk.injEq] at h1
          obtain ⟨e1, e2⟩ := h1
          rw [e1] at hadj
          rw [hadj] at ha
          simp at ha
        · exact ih h n s h2 hadj
      · rw [if_neg hcl] at h
        rcases hv : validateServices t with e | ws' <;> rw [hv] at h
        · exact Except.noConfusion h
        · rcases List.mem_cons.mp hmem with h1 | h2
          · simp only [Prod.mk.injEq] at h1
            obtain ⟨e1, e2⟩ := h1
            rw [e1] at hadj
            rw [hadj] at ha
            simp at ha
          · exact ih hv n s h2 hadj
    · rw [if_neg ha] at h
      by_cases hcl : iscloseDefault (itemsSum s') s'.total
      · rw [if_pos hcl] at h
        rcases List.mem_cons.mp hmem with h1 | h2
        · simp only [Prod.mk.injEq] at h1
          obtain ⟨e1, e2⟩ := h1
          rw [e2]
          exact hcl
        · exact ih h n s h2 hadj
      · rw [if_neg hcl] at h
        exact Except.noConfusion h

theorem validateServices_error_of_mismatch : ∀ {l : List (List Char × Service)} {n s},
    (n, s) ∈ l → isAdjustment n = false →
      iscloseDefault (itemsSum s) s.total = false →
      ∃ e, validateServices l = .error e := by
  intro l
  induction l with
  | nil => intro n s hmem; simp at hmem
  | cons p t ih =>
    intro n s hmem hadj hcl
    obtain ⟨n', s'⟩ := p
    rw [validateServices]
    rcases List.mem_cons.mp hmem with h1 | h2
    · simp only [Prod.mk.injEq] at h1
      obtain ⟨e1, e2⟩ := h1
      rw [← e1, ← e2, hadj]
      simp only [Bool.false_eq_true, if_false]
      rw [hcl]
      simp only [Bool.false_eq_true, if_false]
      exact ⟨_, rfl⟩
    · obtain ⟨e, he⟩ := ih h2 hadj hcl
      by_cases ha : isAdjustment n'
      · rw [if_pos ha]
        by_cases hc : iscloseDefault (itemsSum s') s'.total
        · rw [if_pos hc]
          exact ⟨e, he⟩
        · rw [if_neg hc, he]
          exact ⟨e, rfl⟩
      · rw [if_neg ha]
        by_cases hc : iscloseDefault (itemsSum s') s'.total
        · rw [if_pos hc]
          exact ⟨e, he⟩
        · rw [if_neg hc]
          exact ⟨_, rfl⟩

theorem validateServices_ok_of_all : ∀ {l : List (List Char × Service)},
    (∀ n s, (n, s) ∈ l → isAdjustment n = false →
      iscloseDefault (itemsSum s) s.total = true) →
    ∃ ws, validateServices l = .ok ws ∧
      ∀ n s, (n, s) ∈ l → isAdjustment n = true →
        iscloseDefault (itemsSum s) s.total = false →
        Warning.adjustment n (itemsSum s) s.total ∈ ws := by
  intro l
  induction l with
  | nil => exact fun _ => ⟨[], rfl, fun n s hmem => by simp at hmem⟩
  | cons p t ih =>
    intro hall
    obtain ⟨n', s'⟩ := p
    obtain ⟨ws', hok', hmem'⟩ :=
      ih (fun n s hm => hall n s (List.mem_cons_of_mem _ hm))
    rw [validateServices]
    by_cases ha : isAdjustment n'
    · rw [if_pos ha]
      by_cases hc : iscloseDefault (itemsSum s') s'.total
      · rw [if_pos hc]
        refine ⟨ws', hok', ?_⟩
        intro n s hmem hadj hcl
        rcases List.mem_cons.mp hmem with h1 | h2
        · simp only [Prod.mk.injEq] at h1
          obtain ⟨e1, e2⟩ := h1
          rw [e2] at hcl
          rw [hcl] at hc
          simp at hc
        · exact hmem' n s h2 hadj hcl
      · rw [if_neg hc, hok']
        refine ⟨Warning.adjustment n' (itemsSum s') s'.total :: ws', rfl, ?_⟩
        intro n s hmem hadj hcl
        rcases List.mem_cons.mp hmem with h1 | h2
        · simp only [Prod.mk.injEq] at h1
          obtain ⟨e1, e2⟩ := h1
          rw [← e1, ← e2]
          exact List.mem_cons_self _ _
        · exact List.mem_cons_of_mem _ (hmem' n s h2 hadj hcl)
    · rw [if_neg ha]
      have hc : iscloseDefault (itemsSum s') s'.total = true :=
        hall n' s' (List.mem_cons_self _ _) (by simpa using ha)
      rw [if_pos hc]
      refine ⟨ws', hok', ?_⟩
      intro n s hmem hadj hcl
      rcases List.mem_cons.mp hmem with h1 | h2
      · simp only [Prod.mk.injEq] at h1
        obtain ⟨e1, e2⟩ := h1
        rw [e1] at hadj
        rw [hadj] at ha
        simp at ha
      · exact hmem' n s h2 hadj hcl

/-! ### Composition lemmas for `parse` -/

theorem validate_bill_ok {b : ParsedBill} {ws : List Warning}
    (h : validateServices b.services = .ok ws) :
    validate_bill b = .ok
      ((if iscloseRel (servicesSum b.services) b.total (1 / 20) then []
        else [Warning.billTotal (servicesSum b.services) b.total]) ++ ws) := by
  unfold validate_bill
  rw [h]

theorem parse_eq_ok {hdr body : List Char} {hd : HeaderOut} {svcs ws}
    (hh : parse_header hdr = .ok hd) (hsv : parse_services body = .ok svcs)
    (hvb : validate_bill ⟨hd.due_date, hd.total, svcs⟩ = .ok ws) :
    parse hdr body = .ok (⟨hd.due_date, hd.total, svcs⟩, ws) := by
  unfold parse
  rw [hh]
  simp only [hsv, hvb]

theorem parse_eq_error_header {hdr body : List Char} {e : String}
    (hh : parse_header hdr = .error e) : parse hdr body = .error e := by
  unfold parse
  rw [hh]

theorem parse_eq_error_validate {hdr body : List Char} {hd : HeaderOut} {svcs} {e : String}
    (hh : parse_header hdr = .ok hd) (hsv : parse_services body = .ok svcs)
    (hvb : validate_bill ⟨hd.due_date, hd.total, svcs⟩ = .error e) :
    parse hdr body = .error e := by
  unfold parse
  rw [hh]
  simp only [hsv, hvb]

/-! ### Claim C1 -/

/-- C1: for every parse call that returns a structured bill, every
service whose name does not contain an adjustment keyword has its item
costs summing to the stored total within `math.isclose`'s default
(near-exact, `rel_tol = 1e-9`) tolerance; and if any such service
violates this closeness, the parse call raises (the validation `assert`)
and returns no structured result. -/
theorem c1_nonadjustment_mismatch_fatal :
    (∀ hdr body bill ws, parse hdr body = .ok (bill, ws) →
      ∀ n s, (n, s) ∈ bill.services → isAdjustment n = false →
        iscloseDefault (itemsSum s) s.total = true) ∧
    (∀ hdr body svcs n s, parse_services body = .ok svcs → (n, s) ∈ svcs →
      isAdjustment n = false → iscloseDefault (itemsSum s) s.total = false →
      ∃ e, parse hdr body = .error e) := by
  constructor
  · intro hdr body bill ws h n s hmem hadj
    unfold parse at h
    split at h
    · exact Except.noConfusion h
    · rename_i hd hhd
      split at h
      · exact Except.noConfusion h
      · rename_i svcs hsvcs
        split at h
        · exact Except.noConfusion h
        · rename_i ws' hws
          simp only [Except.ok.injEq, Prod.mk.injEq] at h
          obtain ⟨hb, -⟩ := h
          unfold validate_bill at hws
          rcases hvs : validateServices svcs with e | ws'' <;> rw [hvs] at hws
          · exact Except.noConfusion hws
          · have hsvcs_eq : bill.services = svcs := by rw [← hb]
            rw [hsvcs_eq] at hmem
            exact validateServices_ok_nonadj hvs n s hmem hadj
  · intro hdr body svcs n s hsv hmem hadj hcl
    obtain ⟨e, he⟩ := validateServices_error_of_mismatch hmem hadj hcl
    rcases hh : parse_header hdr with e2 | hd
    · exact ⟨e2, parse_eq_error_header hh⟩
    · refine ⟨e, parse_eq_error_validate hh hsv ?_⟩
      unfold validate_bill
      rw [he]

/-! ### Claim C4 -/

/-- C4: for a service whose name contains an adjustment keyword, a
mismatch between the sum of its item costs and its stored total does not
abort the parse: the call still returns the structured bill (containing
that service's partial item list among `svcs`), and the mismatch is
recorded only as an `AdjustmentMismatchWarning`-style log warning. -/
theorem c4_adjustment_mismatch_warns (hdr body : List Char) (hd : HeaderOut)
    (svcs : List (List Char × Service))
    (hh : parse_header hdr = .ok hd) (hsv : parse_services body = .ok svcs)
    (hall : ∀ n s, (n, s) ∈ svcs → isAdjustment n = false →
      iscloseDefault (itemsSum s) s.total = true) :
    ∃ ws, parse hdr body = .ok (⟨hd.due_date, hd.total, svcs⟩, ws) ∧
      ∀ n s, (n, s) ∈ svcs → isAdjustment n = true →
        iscloseDefault (itemsSum s) s.total = false →
        Warning.adjustment n (itemsSum s) s.total ∈ ws := by
  obtain ⟨ws', hok, hmem⟩ := validateServices_ok_of_all hall
  refine ⟨(if iscloseRel (servicesSum svcs) hd.total (1 / 20) then []
    else [Warning.billTotal (servicesSum svcs) hd.total]) ++ ws', ?_, ?_⟩
  · exact parse_eq_ok hh hsv (validate_bill_ok hok)
  · intro n s hm ha hc
    exact List.mem_append_right _ (hmem n s hm ha hc)

/-! ### Claim C6 -/

/-- C6: bill-level reconciliation never aborts a parse: `validate_bill`
fails exactly when its per-service loop fails (the 5% header check cannot
abort), and when the services validate, the parse call returns the bill
unchanged, with the header/services mismatch recorded only as a
`BillTotalMismatchWarning`-style log warning. -/
theorem c6_bill_total_never_fatal :
    (∀ bill : ParsedBill, (∃ e, validate_bill bill = .error e) ↔
      (∃ e, validateServices bill.services = .error e)) ∧
    (∀ (hdr body : List Char) (hd : HeaderOut) svcs ws,
      parse_header hdr = .ok hd → parse_services body = .ok svcs →
      validateServices svcs = .ok ws →
      parse hdr body = .ok (⟨hd.due_date, hd.total, svcs⟩,
        (if iscloseRel (servicesSum svcs) hd.total (1 / 20) then []
         else [Warning.billTotal (servicesSum svcs) hd.total]) ++ ws)) := by
  constructor
  · intro bill
    unfold validate_bill
    rcases hv : validateServices bill.services with e | ws
    · exact ⟨fun _ => ⟨e, rfl⟩, fun _ => ⟨e, rfl⟩⟩
    · constructor
      · intro ⟨e, he⟩
        exact Except.noConfusion he
      · intro ⟨e, he⟩
        exact Except.noConfusion he
  · intro hdr body hd svcs ws hh hsv hvs
    exact parse_eq_ok hh hsv (validate_bill_ok hvs)

/-! ### Claim C8 -/

/-- C8: when the due-date/total header pattern does not match the header
text at all, the parse call raises `ValueError("Could not parse bill
header.")` and returns no result at all (the `Except` carries no partial
structure). -/
theorem c8_header_not_found_fatal (hdr body : List Char)
    (h : findHeader hdr = none) :
    parse hdr body = .error "Could not parse bill header." := by
  have hph : parse_header hdr = .error "Could not parse bill header." := by
    unfold parse_header
    rw [h]
  exact parse_eq_error_header hph

/-! ### Claim C2 -/

theorem usageSplitAux_succ (f : Nat) (cs : List Char) :
    usageSplitAux (f + 1) cs =
      match findUsage cs with
      | none => (cs, [])
      | some (pre, g, after) =>
        (pre, (g, (usageSplitAux f after).1) :: (usageSplitAux f after).2) := rfl

/-- C3: for every service trailer and every line item, a trailing credit
marker (`CR`) makes the stored amount the negation of the printed
unsigned magnitude; in the absence of the marker, the parsed service
total and the parsed item cost equal that magnitude and are non-negative. -/
theorem c3_credit_sign :
    (∀ body svcs, parse_services body = .ok svcs → ∀ n s, (n, s) ∈ svcs →
      ∃ m ∈ serviceFind body, m.name = n ∧ ∃ mag, parseFloatQ m.totG = some mag ∧
        0 ≤ mag ∧ (m.credit = true → s.total = -mag) ∧
        (m.credit = false → s.total = mag ∧ 0 ≤ s.total)) ∧
    (∀ cs items, parse_items cs = .ok items → ∀ it, it ∈ items →
      ∃ g ∈ itemFind cs, ∃ mag, parseFloatQ g.costG = some mag ∧ 0 ≤ mag ∧
        (g.credit = true → it.cost = -mag) ∧
        (g.credit = false → it.cost = mag ∧ 0 ≤ it.cost)) := by
  constructor
  · intro body svcs h n s hmem
    rcases servicesGo_mem h (n, s) hmem with h1 | ⟨m, hm, hname, hok⟩
    · simp at h1
    · obtain ⟨mag, hmag, htot⟩ := mkService_total hok
      have hnn := parseFloatQ_nonneg hmag
      refine ⟨m, hm, hname, mag, hmag, hnn, ?_, ?_⟩
      · intro hcr
        rw [htot, hcr]
        simp
      · intro hcr
        rw [htot, hcr]
        simp only [Bool.false_eq_true, if_false]
        exact ⟨trivial, hnn⟩
  · intro cs items h it hmem
    obtain ⟨g, hg, hok⟩ := exMapM_ok_mem h it hmem
    obtain ⟨mag, hmag, hcost⟩ := mkItem_cost hok
    have hnn := parseFloatQ_nonneg hmag
    refine ⟨g, hg, mag, hmag, hnn, ?_, ?_⟩
    · intro hcr
      rw [hcost, hcr]
      simp
    · intro hcr
      rw [hcost, hcr]
      simp only [Bool.false_eq_true, if_false]
      exact ⟨trivial, hnn⟩

/-! ### Claim C9 -/

/-- C9: when the usage-period pattern matches at least once in a service
sub-body, the text preceding the first match is discarded: the parsed
parts (and hence every line item in them) are the same as when parsing
the sub-body with that leading text removed. -/
theorem c9_leading_text_discarded (cs pre : List Char) (bs : List (UsageG × List Char))
    (h : usageSplit cs = (pre, bs)) (hne : bs ≠ []) :
    parse_service_bill cs = parse_service_bill (cs.drop pre.length) := by
  rcases hlen : cs.length with - | n
  · have hcs : cs = [] := List.eq_nil_of_length_eq_zero hlen
    subst hcs
    rw [usageSplit] at h
    rw [usageSplitAux_nil] at h
    simp at h
    exact absurd h.2 hne
  · have h' := h
    rw [usageSplit, hlen, usageSplitAux_succ] at h'
    rcases hfu : findUsage cs with - | ⟨pre', g, after⟩ <;> rw [hfu] at h'
    · have h'' : (cs, ([] : List (UsageG × List Char))) = (pre, bs) := h'
      simp only [Prod.mk.injEq] at h''
      exact absurd h''.2.symm hne
    · have h'' : (pre', (g, (usageSplitAux n after).1) :: (usageSplitAux n after).2) =
          (pre, bs) := h'
      simp only [Prod.mk.injEq] at h''
      obtain ⟨hpre, hbs⟩ := h''
      subst hpre
      obtain ⟨-, hmatch⟩ := findUsage_decomp hfu
      have hslt : after.length < (cs.drop pre'.length).length := matchUsage_length hmatch
      have hsle : (cs.drop pre'.length).length ≤ cs.length := by
        rw [List.length_drop]
        omega
      rcases hsl : (cs.drop pre'.length).length with - | m
      · omega
      · obtain ⟨c, t, hct⟩ : ∃ c t, cs.drop pre'.length = c :: t := by
          rcases hc : cs.drop pre'.length with - | ⟨c, t⟩
          · rw [hc] at hsl
            simp at hsl
          · exact ⟨c, t, rfl⟩
        have hfu2 : findUsage (cs.drop pre'.length) = some ([], g, after) := by
          rw [hct] at hmatch ⊢
          rw [findUsage, hmatch]
        have hsplit2 : usageSplit (cs.drop pre'.length) =
            ([], (g, (usageSplitAux m after).1) :: (usageSplitAux m after).2) := by
          rw [usageSplit, hsl, usageSplitAux_succ, hfu2]
        have hcongr : usageSplitAux n after = usageSplitAux m after :=
          usageSplitAux_congr after.length after (Nat.le_refl _) n m (by omega) (by omega)
        have hsplit1 : usageSplit cs =
            (pre', (g, (usageSplitAux n after).1) :: (usageSplitAux n after).2) := by
          rw [usageSplit, hlen, usageSplitAux_succ, hfu]
        unfold parse_service_bill
        rw [hsplit1, hsplit2, hcongr]

/-! ### Claim C10 -/

/-- C10: when the body text contains two (or more) service sections with
the same name, the services map holds exactly one entry for that name,
carrying the data built from the last such section in document order
(the earlier sections' data is silently overwritten by the dict
assignment). -/
theorem c10_duplicate_service_last_wins (body : List Char)
    (svcs : List (List Char × Service)) (n : List Char)
    (hok : parse_services body = .ok svcs)
    (hdup : 2 ≤ ((serviceFind body).filter (fun m => m.name = n)).length) :
    (svcs.filter (fun p => p.1 = n)).length = 1 ∧
    ∃ m s, ((serviceFind body).filter (fun m => m.name = n)).getLast? = some m ∧
      mkService m = .ok s ∧ svcs.filter (fun p => p.1 = n) = [(n, s)] := by
  have hne : (serviceFind body).filter (fun m => m.name = n) ≠ [] := by
    intro hh
    rw [hh] at hdup
    simp at hdup
  obtain ⟨m, hm⟩ := List.getLast?_isSome.mpr hne |> Option.isSome_iff_exists.mp
  obtain ⟨-, IH2⟩ := servicesGo_filter hok (List.Pairwise.nil) n
  obtain ⟨s, hs, hfil⟩ := IH2 m hm
  refine ⟨?_, m, s, hm, hs, hfil⟩
  rw [hfil]
  rfl

/-! ### Claim C7 -/

/-- C7: the trash sub-parser maps a line item whose description is
`"2-Garbage 32 Gal"` to the same item with description `"Garbage"`, size
32 (gallons) and count 2; every line item whose description does not
match the `<count>-<description> <size> Gal` pattern is returned
unchanged, with no trash fields present. -/
theorem c7_trash_parse :
    (∀ it : LineItem, it.description = "2-Garbage 32 Gal".data →
      parse_trash it = { it with
        description := "Garbage".data, size := some 32, count := some 2 }) ∧
    (∀ it : LineItem, matchTrash it.description = none → parse_trash it = it) := by
  constructor
  · intro it h
    unfold parse_trash
    rw [h]
    rfl
  · intro it h
    unfold parse_trash
    rw [h]

/-- C1 witness: the single-service bill parses and its service is close;
the 9-vs-10 mismatch body makes the parse call fail. -/
theorem c1_witness :
    (iscloseDefault (itemsSum (⟨10, [wPart [wItem "Use".data 10]]⟩ : Service))
      (⟨10, [wPart [wItem "Use".data 10]]⟩ : Service).total = true) ∧
    (∃ e, parse wHdr10 wBodyBad = .error e) :=
  ⟨c1_nonadjustment_mismatch_fatal.1 wHdr10 wBodyOk wBillOk []
      (by with_unfolding_all decide)
      "Water".data ⟨10, [wPart [wItem "Use".data 10]]⟩
      (by with_unfolding_all decide) (by decide),
    c1_nonadjustment_mismatch_fatal.2 wHdr10 wBodyBad wSvcBad
      "Water".data ⟨10, [wPart [wItem "Use".data 9]]⟩
      (by with_unfolding_all decide) (by with_unfolding_all decide)
      (by decide) (by with_unfolding_all decide)⟩

/-- C3 witness: a `CR` service trailer and a `CR` line item store negated
magnitudes. -/
theorem c3_witness :
    (∃ m ∈ serviceFind wBodyCr, m.name = "Foo".data ∧
      ∃ mag, parseFloatQ m.totG = some mag ∧ 0 ≤ mag ∧
        (m.credit = true →
          (⟨-5, [wPart [wItem "Bar".data (-5)]]⟩ : Service).total = -mag) ∧
        (m.credit = false →
          (⟨-5, [wPart [wItem "Bar".data (-5)]]⟩ : Service).total = mag ∧
          0 ≤ (⟨-5, [wPart [wItem "Bar".data (-5)]]⟩ : Service).total)) ∧
    (∃ g ∈ itemFind wItemsCr, ∃ mag, parseFloatQ g.costG = some mag ∧ 0 ≤ mag ∧
      (g.credit = true → (wItem "Bar".data (-5)).cost = -mag) ∧
      (g.credit = false → (wItem "Bar".data (-5)).cost = mag ∧
        0 ≤ (wItem "Bar".data (-5)).cost)) :=
  ⟨c3_credit_sign.1 wBodyCr wSvcCr (by with_unfolding_all decide) "Foo".data
      ⟨-5, [wPart [wItem "Bar".data (-5)]]⟩ (by with_unfolding_all decide),
    c3_credit_sign.2 wItemsCr [wItem "Bar".data (-5)] (by with_unfolding_all decide)
      (wItem "Bar".data (-5)) (by with_unfolding_all decide)⟩

/-- C4 witness: the spec's end-to-end adjustments scenario (items sum to
40.00, printed total 55.00) parses successfully with the adjustment
warning. -/
theorem c4_witness :
    ∃ ws, parse wHdr55 wBodyAdj =
        .ok (⟨(⟨"Dec 15, 2024".data, 55⟩ : HeaderOut).due_date,
          (⟨"Dec 15, 2024".data, 55⟩ : HeaderOut).total, wSvcAdj⟩, ws) ∧
      ∀ n s, (n, s) ∈ wSvcAdj → isAdjustment n = true →
        iscloseDefault (itemsSum s) s.total = false →
        Warning.adjustment n (itemsSum s) s.total ∈ ws :=
  c4_adjustment_mismatch_warns wHdr55 wBodyAdj ⟨"Dec 15, 2024".data, 55⟩ wSvcAdj
    (by with_unfolding_all decide) (by with_unfolding_all decide)
    (by
      intro n s hm hadj
      simp only [wSvcAdj, List.mem_singleton, Prod.mk.injEq] at hm
      rw [hm.1] at hadj
      exact absurd hadj (by decide))

/-- C6 witness: services sum 10 against header total 100 (far outside the
5% tolerance) still parses, with the bill-total warning recorded. -/
theorem c6_witness :
    ((∃ e, validate_bill wBillOk = .error e) ↔
      (∃ e, validateServices wBillOk.services = .error e)) ∧
    parse wHdr100 wBodyOk =
      .ok (⟨(⟨"Dec 15, 2024".data, 100⟩ : HeaderOut).due_date,
          (⟨"Dec 15, 2024".data, 100⟩ : HeaderOut).total, wSvcOk⟩,
        (if iscloseRel (servicesSum wSvcOk)
            (⟨"Dec 15, 2024".data, 100⟩ : HeaderOut).total (1 / 20) then []
         else [Warning.billTotal (servicesSum wSvcOk)
            (⟨"Dec 15, 2024".data, 100⟩ : HeaderOut).total]) ++ []) :=
  ⟨c6_bill_total_never_fatal.1 wBillOk,
    c6_bill_total_never_fatal.2 wHdr100 wBodyOk ⟨"Dec 15, 2024".data, 100⟩
      wSvcOk [] (by with_unfolding_all decide) (by with_unfolding_all decide)
      (by with_unfolding_all decide)⟩

/-- C7 witness: the trash pattern rewrites `"2-Garbage 32 Gal"`, and a
non-matching description is untouched. -/
theorem c7_witness :
    parse_trash wTrashIt = { wTrashIt with
      description := "Garbage".data, size := some 32, count := some 2 } ∧
    parse_trash wPlainIt = wPlainIt :=
  ⟨c7_trash_parse.1 wTrashIt (by rfl), c7_trash_parse.2 wPlainIt (by rfl)⟩

/-- C8 witness: a header without the pattern makes the whole parse call
fail with the header error. -/
theorem c8_witness :
    parse "no header here".data wBodyOk = .error "Could not parse bill header." :=
  c8_header_not_found_fatal "no header here".data wBodyOk (by rfl)

/-- C9 witness: parsing with and without the leading `"junk\n"` text
gives the same parts. -/
theorem c9_witness :
    parse_service_bill wNine =
      parse_service_bill (wNine.drop ("junk\n".data).length) :=
  c9_leading_text_discarded wNine "junk\n".data wNineBs (by rfl) (by decide)

/-- C10 witness: two `Water` sections collapse to one entry holding the
second section's data. -/
theorem c10_witness :
    (wSvcDup.filter (fun p => p.1 = "Water".data)).length = 1 ∧
    ∃ m s, ((serviceFind wBodyDup).filter
        (fun m => m.name = "Water".data)).getLast? = some m ∧
      mkService m = .ok s ∧
      wSvcDup.filter (fun p => p.1 = "Water".data) = [("Water".data, s)] :=
  c10_duplicate_service_last_wins wBodyDup wSvcDup "Water".data
    (by with_unfolding_all decide) (by decide)

end BillParser
